import Mathlib

/-!
Shallow embedding of the unified-diff parsing and hunk-application engine of
`src/extension.ts` (`parsePatchFile`, `applyPatchToContent` and the
`FileChange` data model).  JavaScript strings are modelled as `List Char`;
`String.prototype.split`, `Array.prototype.splice`, `Array.prototype.sort`
and the two path regular expressions are modelled by explicit executable
functions with the same observable behaviour.  A thrown JavaScript exception
(the only reachable one is the `TypeError` from `lines[0]` when `lines` is
empty after the `pop`) is modelled by `Option.none` on the parser's result.
-/

namespace GitPatch

/-- JavaScript `s.split('\n')`: splits on every newline, always returns at
least one (possibly empty) piece. -/
def splitNl : List Char → List (List Char)
  | [] => [[]]
  | c :: rest =>
    if c = '\n' then [] :: splitNl rest
    else
      match splitNl rest with
      | [] => [[c]]
      | l :: ls => (c :: l) :: ls

/-- JavaScript `lines.join('\n')`. -/
def joinNl : List (List Char) → List Char
  | [] => []
  | [l] => l
  | l :: l' :: ls => l ++ '\n' :: joinNl (l' :: ls)

/-- Does the char list start with the given character (JS `startsWith` on a
one-character pattern)? -/
def startsWithCh (c : Char) : List Char → Bool
  | [] => false
  | x :: _ => x = c

/-- Does the line start with the two-character hunk marker `@@`
(JS `line.startsWith('@@')`)? -/
def startsAtAt : List Char → Bool
  | c1 :: c2 :: _ => c1 = '@' && c2 = '@'
  | _ => false

/-- Maximal digit prefix and the remainder (models a greedy regex `\d+`,
which never needs to backtrack here because the pattern characters that can
follow it are never digits). -/
def digitSpan : List Char → List Char × List Char
  | [] => ([], [])
  | c :: rest =>
    if c.isDigit then
      let (d, r) := digitSpan rest
      (c :: d, r)
    else ([], c :: rest)

/-- `parseInt` on a non-empty digit string. -/
def toNatD (ds : List Char) : Nat :=
  ds.foldl (fun n c => n * 10 + (c.toNat - 48)) 0

/-- Consume a literal prefix, returning the remainder. -/
def expectPre (pat l : List Char) : Option (List Char) :=
  if pat.isPrefixOf l then some (l.drop pat.length) else none

/-- Match `(\d+)(?:,(\d+))?` followed by the continuation `k`, with the
regex backtracking order: the optional `,count` group is tried first and
abandoned (as a whole) if the continuation fails after it.  A missing count
defaults to 1, as in the source. -/
def matchPair {β : Type} (k : List Char → Option β) (l : List Char) :
    Option ((Nat × Nat) × β) :=
  let (d1, r1) := digitSpan l
  if d1 = [] then none
  else
    let n1 := toNatD d1
    let withComma : Option ((Nat × Nat) × β) :=
      match r1 with
      | ',' :: r2 =>
        let (d2, r3) := digitSpan r2
        if d2 = [] then none
        else (k r3).map (fun b => ((n1, toNatD d2), b))
      | _ => none
    withComma <|> (k r1).map (fun b => ((n1, 1), b))

/-- Try the hunk-header pattern `@@ -(\d+)(?:,(\d+))? \+(\d+)(?:,(\d+))? @@`
anchored at the start of `l`. -/
def matchHeaderAt (l : List Char) : Option (Nat × Nat × Nat × Nat) :=
  match expectPre ("@@ -".toList) l with
  | none => none
  | some r =>
    (matchPair (fun r2 =>
      match expectPre (" +".toList) r2 with
      | none => none
      | some r3 =>
        matchPair (fun r4 => (expectPre (" @@".toList) r4).map (fun _ => ())) r3) r).map
      (fun x => (x.1.1, x.1.2, x.2.1.1, x.2.1.2))

/-- JS `line.match(/@@ -(\d+)(?:,(\d+))? \+(\d+)(?:,(\d+))? @@/)`: an
unanchored search, leftmost match wins. -/
def matchHunkHeader : List Char → Option (Nat × Nat × Nat × Nat)
  | [] => none
  | c :: rest => matchHeaderAt (c :: rest) <|> matchHunkHeader rest

/-- Split at the LAST occurrence of `pat` (nonempty) in `l`, returning the
part before and the part after the occurrence; this is where the greedy
`(.*)` before a literal ends up after backtracking. -/
def lastSplitOn (pat : List Char) : List Char → Option (List Char × List Char)
  | [] => none
  | c :: rest =>
    match lastSplitOn pat rest with
    | some (b, a) => some (c :: b, a)
    | none =>
      if pat.isPrefixOf (c :: rest) then some ([], List.drop pat.length (c :: rest))
      else none

/-- JS `line.match(/a\/(.*) b\/(.*)/)`: at the leftmost viable position,
`a/`, then group 1 up to the LAST ` b/` (greedy `.*`), then group 2 to the
end of the line. Returns (group1, group2). -/
def matchAB : List Char → Option (List Char × List Char)
  | [] => none
  | c :: rest =>
    (match c, rest with
     | 'a', '/' :: r => lastSplitOn (" b/".toList) r
     | _, _ => none) <|> matchAB rest

/-- For the quoted-path regex: given the text after the opening quote, split
at the LAST occurrence of `" "` whose remainder still contains a closing
quote; group 2 is the text up to the LAST closing quote of that remainder. -/
def lastQuotedSplit : List Char → Option (List Char × List Char)
  | [] => none
  | c :: rest =>
    match lastQuotedSplit rest with
    | some (b, a) => some (c :: b, a)
    | none =>
      if ("\" \"".toList).isPrefixOf (c :: rest) then
        match lastSplitOn ['"'] (List.drop 3 (c :: rest)) with
        | some (g2, _) => some ([], g2)
        | none => none
      else none

/-- JS `line.match(/\"(.*)\" \"(.*)\"/)`: leftmost viable `"`, greedy
groups. Returns (group1, group2). -/
def matchQuoted : List Char → Option (List Char × List Char)
  | [] => none
  | c :: rest =>
    (if c = '"' then lastQuotedSplit rest else none) <|> matchQuoted rest

/-- The path extraction of `parsePatchFile`: try the `a/<path> b/<path>`
form, then the quoted form; the record's path is the second capture
(`filePathMatch[2]`, the post-change path). -/
def pathOf (l0 : List Char) : Option (List Char) :=
  match matchAB l0 with
  | some (_, g2) => some g2
  | none =>
    match matchQuoted l0 with
    | some (_, g2) => some g2
    | none => none

/-- `fileType` values of the source's `FileChange` interface
(`'file' | 'directory' | 'binary'`). -/
inductive FileType
  | file
  | directory
  | binary
deriving DecidableEq

/-- One element of `FileChange.hunks` in the source. `content` is the raw
hunk body built by string concatenation, one trailing newline trimmed. -/
structure Hunk where
  oldStartLine : Nat
  oldLineCount : Nat
  newStartLine : Nat
  newLineCount : Nat
  content : List Char
deriving DecidableEq

/-- The source's `FileChange` interface. -/
structure FileChange where
  filePath : List Char
  fileType : FileType
  isNew : Bool
  isDeleted : Bool
  hunks : List Hunk
deriving DecidableEq

/-- Substring containment over char lists. -/
def includesAux (pat : List Char) : List Char → Bool
  | [] => pat.isEmpty
  | c :: rest => pat.isPrefixOf (c :: rest) || includesAux pat rest

/-- JS `line.includes(s)` (substring containment). -/
def includesStr (s : String) (l : List Char) : Bool :=
  includesAux s.toList l

/-- The header-classification loop of `parsePatchFile`
(`for (let j = 1; j < Math.min(lines.length, 10); j++)`): on each line the
new-file and deleted-file markers are tested first (no break), then the
binary marker and the directory-mode marker stop the scan. -/
def scanHeader : List (List Char) → FileType × Bool × Bool → FileType × Bool × Bool
  | [], st => st
  | line :: rest, (t, n, d) =>
    let n' := n || includesStr "new file mode" line
    let d' := d || includesStr "deleted file mode" line
    if includesStr "Binary files" line then (.binary, n', d')
    else if includesStr "old mode" line && includesStr "new mode" line &&
        (includesStr "040000" line || includesStr "160000" line) then
      (.directory, n', d')
    else scanHeader rest (t, n', d')

/-- `content.replace(/\n$/, '')`: remove a single trailing newline. -/
def trimNl (l : List Char) : List Char :=
  if l.getLast? = some '\n' then l.dropLast else l

/-- Mutable state of the hunk-scanning loop: `inHunk`, `currentHunk`, and
the `hunks` array accumulated so far. -/
structure HState where
  inHunk : Bool
  cur : Hunk
  hunks : List Hunk
deriving DecidableEq

/-- One iteration of the hunk-scanning loop of `parsePatchFile`.  On a line
starting with `@@`: if a hunk is open it is trimmed and pushed (as a copy,
the trim mutating `currentHunk` as in the source); then, only if the header
pattern matches, a fresh `currentHunk` is started.  Otherwise a body line is
appended (plus `'\n'`) to the open hunk, or ignored when none is open. -/
def hunkStep (st : HState) (line : List Char) : HState :=
  if startsAtAt line then
    let st1 :=
      if st.inHunk then
        let cur' : Hunk := { st.cur with content := trimNl st.cur.content }
        { st with cur := cur', hunks := st.hunks ++ [cur'] }
      else st
    match matchHunkHeader line with
    | some (o1, o2, n1, n2) =>
      { st1 with inHunk := true, cur := ⟨o1, o2, n1, n2, []⟩ }
    | none => st1
  else if st.inHunk then
    { st with cur := { st.cur with content := st.cur.content ++ line ++ ['\n'] } }
  else st

/-- The whole hunk-scanning loop over `lines[1..]`, including the final
"add the last hunk" step. -/
def scanHunks (ls : List (List Char)) : List Hunk :=
  let st := ls.foldl hunkStep ⟨false, ⟨0, 0, 0, 0, []⟩, []⟩
  if st.inHunk then st.hunks ++ [{ st.cur with content := trimNl st.cur.content }]
  else st.hunks

/-- The per-segment line list: `const lines = diffContent.split('\n')`
followed by `lines.pop()` (the final element is discarded before any header
or hunk processing). -/
def segLines (seg : List Char) : List (List Char) :=
  (splitNl seg).dropLast

/-- The body of the per-segment loop of `parsePatchFile`.
`none` models the thrown `TypeError` (`lines[0]` is `undefined` when the
popped line list is empty); `some none` models `continue` (segment dropped
because neither path pattern matches); `some (some fc)` is a pushed record. -/
def parseSegment (seg : List Char) : Option (Option FileChange) :=
  match segLines seg with
  | [] => none
  | l0 :: _ =>
    match pathOf l0 with
    | none => some none
    | some fp =>
      match scanHeader (((segLines seg).drop 1).take 9) (.file, false, false) with
      | (.directory, n, d) => some (some ⟨fp, .directory, n, d, []⟩)
      | (.binary, n, d) => some (some ⟨fp, .binary, n, d, []⟩)
      | (.file, n, d) =>
        some (some ⟨fp, .file, n, d, scanHunks ((segLines seg).drop 1)⟩)

/-- The literal per-file boundary marker. -/
def gitMarker : List Char := "diff --git".toList

/-- JS `patchContent.split('diff --git')`: split at every (leftmost,
non-overlapping) occurrence of the marker.  `skip` counts marker characters
still to be consumed after a match, so the recursion is structural. -/
def splitSeqAux (sep : List Char) : List Char → Nat → List Char → List (List Char)
  | [], _, acc => [acc.reverse]
  | _ :: rest, skip + 1, acc => splitSeqAux sep rest skip acc
  | c :: rest, 0, acc =>
    if sep.isPrefixOf (c :: rest) then
      acc.reverse :: splitSeqAux sep rest (sep.length - 1) []
    else splitSeqAux sep rest 0 (c :: acc)

/-- The file segments: every split piece after the first
(`for (let i = 1; i < diffFiles.length; i++)`). -/
def segmentsOf (patchContent : List Char) : List (List Char) :=
  (splitSeqAux gitMarker patchContent 0 []).drop 1

/-- The per-segment loop: records are pushed in order; a thrown exception
(`none` from `parseSegment`) aborts the whole parse. -/
def parseSegs : List (List Char) → Option (List FileChange)
  | [] => some []
  | seg :: rest =>
    match parseSegment seg with
    | none => none
    | some none => parseSegs rest
    | some (some fc) => (parseSegs rest).map (fc :: ·)

/-- The source's `parsePatchFile`, with `none` for a thrown exception. -/
def parsePatchFile (patchContent : List Char) : Option (List FileChange) :=
  parseSegs (segmentsOf patchContent)

/-- The body-line classification of `applyPatchToContent`: `+` contributes
its text, `-` and `\` contribute nothing, anything else is a context line
and contributes its text (first character stripped). -/
def insertLineF (hl : List Char) : Option (List Char) :=
  if startsWithCh '+' hl then some (hl.drop 1)
  else if startsWithCh '-' hl || startsWithCh '\\' hl then none
  else some (hl.drop 1)

/-- `linesToInsert` computed from a hunk's `content` in
`applyPatchToContent`. -/
def linesToInsert (content : List Char) : List (List Char) :=
  (splitNl content).filterMap insertLineF

/-- JS `lines.splice(start, deleteCount, ...items)` (result array only):
a negative start counts from the end and is clamped at 0; a start past the
end is clamped to the length; the deletions are truncated at the end. -/
def spliceJs (ls : List (List Char)) (start : Int) (deleteCount : Nat)
    (items : List (List Char)) : List (List Char) :=
  let s : Nat := if start < 0 then ((ls.length : Int) + start).toNat
                 else min start.toNat ls.length
  ls.take s ++ items ++ ls.drop (s + deleteCount)

/-- `[...change.hunks].sort((a, b) => b.oldStartLine - a.oldStartLine)`:
a stable sort by descending `oldStartLine` (ECMA-262 `Array.prototype.sort`
is stable; any stable sort with the same comparator yields the same array,
so the insertion sort is observationally identical). -/
def sortHunks (hs : List Hunk) : List Hunk :=
  List.insertionSort (fun a b => b.oldStartLine ≤ a.oldStartLine) hs

/-- The source's `applyPatchToContent`. -/
def applyPatchToContent (originalContent : List Char) (change : FileChange) :
    List Char :=
  let lines := splitNl originalContent
  let sortedHunks := sortHunks change.hunks
  let lines' := sortedHunks.foldl
    (fun ls hunk =>
      spliceJs ls ((hunk.oldStartLine : Int) - 1) hunk.oldLineCount
        (linesToInsert hunk.content))
    lines
  joinNl lines'

/-- The tag of a raw hunk body line, read the way `applyPatchToContent`
consumes it: leading `+` is an added line, leading `-` a removed line, and
anything else a context line; the leading character is stripped. -/
inductive LineTag
  | added
  | removed
  | context
deriving DecidableEq

/-- Tag and text of one raw hunk body line. -/
def tagOf (l : List Char) : LineTag × List Char :=
  if startsWithCh '+' l then (.added, l.drop 1)
  else if startsWithCh '-' l then (.removed, l.drop 1)
  else (.context, l.drop 1)

/-- The tagged view of a hunk's raw `content`. -/
def taggedBody (content : List Char) : List (LineTag × List Char) :=
  (splitNl content).map tagOf

/-- Count of removed-plus-context lines in a hunk body (the lines the hunk
consumes from the original file). -/
def oldBodyCount (content : List Char) : Nat :=
  ((taggedBody content).filter (fun p => p.1 != LineTag.added)).length

/-- Count of added-plus-context lines in a hunk body (the lines the hunk
produces in the new file). -/
def newBodyCount (content : List Char) : Nat :=
  ((taggedBody content).filter (fun p => p.1 != LineTag.removed)).length

/-! ### Concrete inputs used by the claims -/

/-- A 20-line original file, `a` through `t`, one letter per line. -/
def c1orig : List Char :=
  "a\nb\nc\nd\ne\nf\ng\nh\ni\nj\nk\nl\nm\nn\no\np\nq\nr\ns\nt\n".toList

/-- Hunk at `old_start = 2`: keep line `b`, insert `X` after it. -/
def c1hunkLow : Hunk := ⟨2, 1, 2, 2, " b\n+X".toList⟩

/-- Hunk at `old_start = 10`: replace line `j` by `J`. -/
def c1hunkHigh : Hunk := ⟨10, 1, 10, 1, "-j\n+J".toList⟩

/-- A change whose hunks are listed in ascending order of `oldStartLine`. -/
def c1change : FileChange := ⟨"f".toList, .file, false, false, [c1hunkLow, c1hunkHigh]⟩

/-- The result prescribed by per-hunk splicing against the original
numbering: `X` inserted after original line 2, original line 10 replaced. -/
def c1expected : List Char :=
  "a\nb\nX\nc\nd\ne\nf\ng\nh\ni\nJ\nk\nl\nm\nn\no\np\nq\nr\ns\nt\n".toList

def c2orig : List Char := "a\nb\ne\n".toList

def c2change : FileChange :=
  ⟨"f".toList, .file, false, false, [⟨1, 3, 1, 4, " a\n-b\n+c\n+d\n e".toList⟩]⟩

def c3input : List Char :=
  "diff --git a/f b/f\n@@ -1,3 +1,4 @@\n a\n-b\n+c\n+d\n e\n".toList

/-- A single-file diff whose only hunk claims to span 5 original lines but
whose body holds a single context line. -/
def c4input : List Char := "diff --git a/f b/f\n@@ -1,5 +1,5 @@\n a\n".toList

def c4hunk : Hunk := ⟨1, 5, 1, 5, " a".toList⟩

def c4record : FileChange := ⟨"f".toList, .file, false, false, [c4hunk]⟩

def c5binChange : FileChange := ⟨"x.png".toList, .binary, false, false, []⟩

def c5delChange : FileChange := ⟨"f".toList, .file, false, true, []⟩

/-- A diff whose single segment has no newline, so the popped line list is
empty and `lines[0].match` throws. -/
def c6input : List Char := "diff --git a/x b/x".toList

/-- Three segments: a canonical `a/ b/` path, a quoted path, and a segment
matching neither form. -/
def c6winput : List Char :=
  "diff --git a/x b/x\njunk\ndiff --git \"p q\" \"p r\"\njunk\ndiff --git nope\njunk\n".toList

/-- A valid hunk header, one body line, then a malformed `@@` line, then
another body line. -/
def c7input : List Char := "diff --git a/f b/f\n@@ -1,2 +1,2 @@\n x\n@@bad\n y\n".toList

/-- A malformed `@@` line before any hunk is open, then a valid hunk. -/
def c7binput : List Char := "diff --git a/f b/f\n@@bad\nzz\n@@ -1 +1 @@\n w\n".toList

def c8orig : List Char := "a\nb\n".toList

def c8hunk : Hunk := ⟨1, 2, 1, 2, " a\n b".toList⟩

def c8change : FileChange := ⟨"f".toList, .file, false, false, [c8hunk]⟩

/-- A segment whose header block contains both the new-file and the
deleted-file marker lines. -/
def c9input : List Char :=
  "diff --git a/f b/f\nnew file mode 100644\ndeleted file mode 100644\n@@ -1 +1 @@\n x\n".toList

/-- Same diff with and without the trailing newline: without it, the final
body line ` b` is lost to the `pop`. -/
def c10noNl : List Char := "diff --git a/f b/f\n@@ -1,2 +1,2 @@\n a\n b".toList

def c10withNl : List Char := "diff --git a/f b/f\n@@ -1,2 +1,2 @@\n a\n b\n".toList

/-! ### Helper lemmas about the embedded primitives -/

theorem splitNl_ne_nil (l : List Char) : splitNl l ≠ [] := by
  cases l with
  | nil => simp [splitNl]
  | cons c rest =>
    simp only [splitNl]
    split
    · simp
    · split <;> simp

theorem joinNl_splitNl (l : List Char) : joinNl (splitNl l) = l := by
  induction l with
  | nil => rfl
  | cons c rest ih =>
    simp only [splitNl]
    by_cases hc : c = '\n'
    · subst hc
      simp only [if_pos rfl]
      rcases hs : splitNl rest with _ | ⟨p, ps⟩
      · exact absurd hs (splitNl_ne_nil rest)
      · rw [hs] at ih
        simp only [joinNl]
        simpa using ih
    · rw [if_neg hc]
      rcases hs : splitNl rest with _ | ⟨p, ps⟩
      · exact absurd hs (splitNl_ne_nil rest)
      · rw [hs] at ih
        cases ps with
        | nil => simp only [joinNl] at ih ⊢; rw [ih]
        | cons q qs =>
          simp only [joinNl] at ih ⊢
          rw [List.cons_append, ih]

theorem splitNl_cons_nl (rest : List Char) :
    splitNl ('\n' :: rest) = [] :: splitNl rest := by
  simp [splitNl]

theorem splitNl_cons_other (c : Char) (rest : List Char) (hc : c ≠ '\n') :
    splitNl (c :: rest) =
      match splitNl rest with
      | [] => [[c]]
      | l :: ls => (c :: l) :: ls := by
  simp [splitNl, hc]

theorem splitNl_append_newline (xs : List Char) :
    splitNl (xs ++ ['\n']) = splitNl xs ++ [[]] := by
  induction xs with
  | nil => rfl
  | cons c rest ih =>
    by_cases hc : c = '\n'
    · subst hc
      rw [List.cons_append, splitNl_cons_nl, splitNl_cons_nl, ih, List.cons_append]
    · rw [List.cons_append, splitNl_cons_other c _ hc, splitNl_cons_other c _ hc, ih]
      rcases hs : splitNl rest with _ | ⟨p, ps⟩
      · exact absurd hs (splitNl_ne_nil rest)
      · simp

theorem splitNl_getLast_ne_nil (seg : List Char) (h1 : seg.getLast? ≠ some '\n')
    (t : List Char) (ht : (splitNl seg).getLast? = some t) (h0 : seg ≠ []) :
    t ≠ [] := by
  induction seg generalizing t with
  | nil => exact absurd rfl h0
  | cons c rest ih =>
    cases rest with
    | nil =>
      have hc : c ≠ '\n' := by
        intro hcc
        exact h1 (by simp [hcc])
      have hv : splitNl [c] = [[c]] := by
        simp [splitNl, hc]
      rw [hv] at ht
      simp only [List.getLast?_singleton, Option.some.injEq] at ht
      subst ht
      simp
    | cons c2 rest2 =>
      have h1' : (c2 :: rest2).getLast? ≠ some '\n' := by
        simpa using h1
      by_cases hc : c = '\n'
      · subst hc
        rw [splitNl_cons_nl] at ht
        rcases hs : splitNl (c2 :: rest2) with _ | ⟨p, ps⟩
        · exact absurd hs (splitNl_ne_nil _)
        · rw [hs, List.getLast?_cons_cons, ← hs] at ht
          exact ih h1' t ht (by simp)
      · rw [splitNl_cons_other c _ hc] at ht
        rcases hs : splitNl (c2 :: rest2) with _ | ⟨p, ps⟩
        · exact absurd hs (splitNl_ne_nil _)
        · rw [hs] at ht
          cases ps with
          | nil =>
            simp only [List.getLast?_singleton, Option.some.injEq] at ht
            subst ht
            simp
          | cons q qs =>
            simp only [List.getLast?_cons_cons] at ht
            have ht2 : (splitNl (c2 :: rest2)).getLast? = some t := by
              rw [hs, List.getLast?_cons_cons]
              exact ht
            exact ih h1' t ht2 (by simp)

theorem take_take_drop_drop (L : List (List Char)) (i k : Nat) :
    L.take i ++ ((L.drop i).take k ++ L.drop (i + k)) = L := by
  have h1 : L.drop (i + k) = (L.drop i).drop k := by
    rw [List.drop_drop]
  rw [h1, List.take_append_drop, List.take_append_drop]

theorem insertLineF_context (w : List Char) : insertLineF (' ' :: w) = some w := rfl

theorem filterMap_insertLineF_context (ws : List (List Char)) :
    ((ws.map (fun w => ' ' :: w)).filterMap insertLineF) = ws := by
  induction ws with
  | nil => rfl
  | cons w rest ih =>
    simp only [List.map_cons, List.filterMap_cons, insertLineF_context]
    rw [ih]

theorem includesAux_isInfix (pat l : List Char) (h : includesAux pat l = true) :
    pat <:+: l := by
  induction l with
  | nil =>
    simp only [includesAux, List.isEmpty_iff] at h
    simp [h]
  | cons c rest ih =>
    simp only [includesAux, Bool.or_eq_true] at h
    rcases h with h | h
    · exact (List.isPrefixOf_iff_prefix.mp h).isInfix
    · exact List.infix_cons (ih h)

theorem splitNl_head_tail (seg : List Char) :
    ∃ p ps, splitNl seg = p :: ps ∧ p <+: seg ∧ ∀ q ∈ ps, q <:+: seg := by
  induction seg with
  | nil => exact ⟨[], [], rfl, List.nil_prefix, by simp⟩
  | cons c rest ih =>
    obtain ⟨p, ps, heq, hp, hq⟩ := ih
    by_cases hc : c = '\n'
    · subst hc
      refine ⟨[], splitNl rest, by simp [splitNl], List.nil_prefix, ?_⟩
      intro q hqmem
      rw [heq] at hqmem
      rcases List.mem_cons.mp hqmem with h1 | h2
      · exact List.infix_cons (h1 ▸ hp.isInfix)
      · exact List.infix_cons (hq q h2)
    · refine ⟨c :: p, ps, by rw [splitNl_cons_other c _ hc, heq], ?_, ?_⟩
      · exact List.cons_prefix_cons.mpr ⟨rfl, hp⟩
      · intro q hqmem
        exact List.infix_cons (hq q hqmem)

theorem splitNl_mem_isInfix (seg p : List Char) (h : p ∈ splitNl seg) :
    p <:+: seg := by
  obtain ⟨p0, ps, heq, hp, hq⟩ := splitNl_head_tail seg
  rw [heq] at h
  rcases List.mem_cons.mp h with h1 | h2
  · exact h1 ▸ hp.isInfix
  · exact hq p h2

theorem splitSeqAux_isInfix (sep : List Char) :
    ∀ (l : List Char) (skip : Nat) (acc : List Char), ∃ p rest,
      splitSeqAux sep l skip acc = (acc.reverse ++ p) :: rest ∧
      p <+: l.drop skip ∧ ∀ s ∈ rest, s <:+: l := by
  intro l
  induction l with
  | nil =>
    intro skip acc
    exact ⟨[], [], by simp [splitSeqAux], by simp, by simp⟩
  | cons c rest ih =>
    intro skip acc
    match skip with
    | k + 1 =>
      obtain ⟨p, rs, heq, hpre, hrest⟩ := ih k acc
      refine ⟨p, rs, ?_, ?_, ?_⟩
      · rw [← heq]
        rfl
      · simpa using hpre
      · intro s hs
        exact List.infix_cons (hrest s hs)
    | 0 =>
      by_cases hp : sep.isPrefixOf (c :: rest)
      · obtain ⟨p, rs, heq, hpre, hrest⟩ := ih (sep.length - 1) []
        refine ⟨[], (p :: rs : List (List Char)), ?_, by simp, ?_⟩
        · show splitSeqAux sep (c :: rest) 0 acc = (acc.reverse ++ []) :: p :: rs
          rw [splitSeqAux, if_pos hp, heq]
          simp
        · intro s hs
          rcases List.mem_cons.mp hs with h1 | h2
          · subst h1
            exact List.infix_cons (hpre.isInfix.trans (List.drop_suffix _ _).isInfix)
          · exact List.infix_cons (hrest s h2)
      · obtain ⟨p, rs, heq, hpre, hrest⟩ := ih 0 (c :: acc)
        refine ⟨c :: p, rs, ?_, ?_, ?_⟩
        · rw [splitSeqAux, if_neg hp, heq]
          simp
        · rw [List.drop_zero] at hpre ⊢
          exact List.cons_prefix_cons.mpr ⟨rfl, hpre⟩
        · intro s hs
          exact List.infix_cons (hrest s hs)

theorem segmentsOf_isInfix (input seg : List Char) (h : seg ∈ segmentsOf input) :
    seg <:+: input := by
  obtain ⟨p, rs, heq, _, hrest⟩ := splitSeqAux_isInfix gitMarker input 0 []
  unfold segmentsOf at h
  rw [heq] at h
  simp only [List.drop_succ_cons, List.drop_zero] at h
  exact hrest seg h

/-! ### Lemmas about the parser's control flow -/

theorem parseSegment_eq_none (seg : List Char) :
    parseSegment seg = none ↔ segLines seg = [] := by
  unfold parseSegment
  rcases hl : segLines seg with _ | ⟨l0, ls⟩
  · simp
  · simp only
    rcases hpth : pathOf l0 with _ | fp
    · simp
    · rcases hsc : scanHeader (((l0 :: ls).drop 1).take 9) (.file, false, false)
        with ⟨ft, n, d⟩
      cases ft <;> simp

theorem two_le_splitNl_length (seg : List Char) (h : '\n' ∈ seg) :
    2 ≤ (splitNl seg).length := by
  induction seg with
  | nil => cases h
  | cons c rest ih =>
    by_cases hc : c = '\n'
    · subst hc
      rw [splitNl_cons_nl]
      have := splitNl_ne_nil rest
      have hlen : 1 ≤ (splitNl rest).length := by
        cases hsp : splitNl rest
        · exact absurd hsp this
        · simp
      simp only [List.length_cons]
      omega
    · have hrest : '\n' ∈ rest := by
        rcases List.mem_cons.mp h with h1 | h2
        · exact absurd h1.symm hc
        · exact h2
      have h2 := ih hrest
      rw [splitNl_cons_other c _ hc]
      rcases hs : splitNl rest with _ | ⟨p, ps⟩
      · exact absurd hs (splitNl_ne_nil rest)
      · rw [hs] at h2
        simp only [List.length_cons] at h2 ⊢
        omega

theorem segLines_ne_nil_of_newline (seg : List Char) (h : '\n' ∈ seg) :
    segLines seg ≠ [] := by
  unfold segLines
  have h2 := two_le_splitNl_length seg h
  intro hcon
  have := congrArg List.length hcon
  rw [List.length_dropLast] at this
  simp only [List.length_nil] at this
  omega

theorem parseSegs_eq_none (segs : List (List Char)) :
    parseSegs segs = none ↔ ∃ seg ∈ segs, parseSegment seg = none := by
  induction segs with
  | nil => simp [parseSegs]
  | cons seg rest ih =>
    simp only [parseSegs]
    rcases hp : parseSegment seg with _ | op
    · simp [hp]
    · rcases op with _ | fc
      · simp only [ih, List.mem_cons]
        constructor
        · intro ⟨s, hs, he⟩
          exact ⟨s, Or.inr hs, he⟩
        · intro ⟨s, hs, he⟩
          rcases hs with h1 | h2
          · subst h1
            rw [hp] at he
            cases he
          · exact ⟨s, h2, he⟩
      · simp only [Option.map_eq_none', ih, List.mem_cons]
        constructor
        · intro ⟨s, hs, he⟩
          exact ⟨s, Or.inr hs, he⟩
        · intro ⟨s, hs, he⟩
          rcases hs with h1 | h2
          · subst h1
            rw [hp] at he
            cases he
          · exact ⟨s, h2, he⟩

theorem parseSegs_eq_filterMap (segs : List (List Char))
    (h : ∀ seg ∈ segs, parseSegment seg ≠ none) :
    parseSegs segs = some (segs.filterMap (fun seg => (parseSegment seg).join)) := by
  induction segs with
  | nil => rfl
  | cons seg rest ih =>
    have h1 := h seg (List.mem_cons_self _ _)
    have hrest := ih (fun s hs => h s (List.mem_cons_of_mem _ hs))
    rcases hp : parseSegment seg with _ | op
    · exact absurd hp h1
    · rcases op with _ | fc
      · simp only [parseSegs, hp, List.filterMap_cons, Option.join]
        exact hrest
      · simp only [parseSegs, hp, List.filterMap_cons, Option.join, hrest,
          Option.map_some']
        rfl

theorem parseSegs_mem (segs : List (List Char)) (records : List FileChange)
    (h : parseSegs segs = some records) (r : FileChange) (hr : r ∈ records) :
    ∃ seg ∈ segs, parseSegment seg = some (some r) := by
  induction segs generalizing records with
  | nil =>
    simp only [parseSegs, Option.some.injEq] at h
    subst h
    cases hr
  | cons seg rest ih =>
    simp only [parseSegs] at h
    rcases hp : parseSegment seg with _ | op
    · rw [hp] at h
      cases h
    · rw [hp] at h
      rcases op with _ | fc
      · obtain ⟨s, hs, he⟩ := ih records h hr
        exact ⟨s, List.mem_cons_of_mem _ hs, he⟩
      · rcases hrest : parseSegs rest with _ | rs
        · rw [hrest] at h
          cases h
        · rw [hrest] at h
          simp only [Option.map_some', Option.some.injEq] at h
          subst h
          rcases List.mem_cons.mp hr with h1 | h2
          · subst h1
            exact ⟨seg, List.mem_cons_self _ _, hp⟩
          · obtain ⟨s, hs, he⟩ := ih rs hrest h2
            exact ⟨s, List.mem_cons_of_mem _ hs, he⟩

theorem scanHeader_isNew (ls : List (List Char)) :
    ∀ t n d, (scanHeader ls (t, n, d)).2.1 = true →
      n = true ∨ ∃ l ∈ ls, includesStr "new file mode" l = true := by
  induction ls with
  | nil =>
    intro t n d h
    exact Or.inl h
  | cons line rest ih =>
    intro t n d h
    simp only [scanHeader] at h
    by_cases hb : includesStr "Binary files" line = true
    · rw [if_pos hb] at h
      simp only at h
      rcases Bool.or_eq_true_iff.mp h with h1 | h2
      · exact Or.inl h1
      · exact Or.inr ⟨line, List.mem_cons_self _ _, h2⟩
    · rw [if_neg hb] at h
      by_cases hd : (includesStr "old mode" line && includesStr "new mode" line &&
          (includesStr "040000" line || includesStr "160000" line)) = true
      · rw [if_pos hd] at h
        simp only at h
        rcases Bool.or_eq_true_iff.mp h with h1 | h2
        · exact Or.inl h1
        · exact Or.inr ⟨line, List.mem_cons_self _ _, h2⟩
      · rw [if_neg hd] at h
        rcases ih _ _ _ h with h1 | ⟨l, hl, he⟩
        · rcases Bool.or_eq_true_iff.mp h1 with h2 | h3
          · exact Or.inl h2
          · exact Or.inr ⟨line, List.mem_cons_self _ _, h3⟩
        · exact Or.inr ⟨l, List.mem_cons_of_mem _ hl, he⟩

theorem scanHeader_isDeleted (ls : List (List Char)) :
    ∀ t n d, (scanHeader ls (t, n, d)).2.2 = true →
      d = true ∨ ∃ l ∈ ls, includesStr "deleted file mode" l = true := by
  induction ls with
  | nil =>
    intro t n d h
    exact Or.inl h
  | cons line rest ih =>
    intro t n d h
    simp only [scanHeader] at h
    by_cases hb : includesStr "Binary files" line = true
    · rw [if_pos hb] at h
      simp only at h
      rcases Bool.or_eq_true_iff.mp h with h1 | h2
      · exact Or.inl h1
      · exact Or.inr ⟨line, List.mem_cons_self _ _, h2⟩
    · rw [if_neg hb] at h
      by_cases hd : (includesStr "old mode" line && includesStr "new mode" line &&
          (includesStr "040000" line || includesStr "160000" line)) = true
      · rw [if_pos hd] at h
        simp only at h
        rcases Bool.or_eq_true_iff.mp h with h1 | h2
        · exact Or.inl h1
        · exact Or.inr ⟨line, List.mem_cons_self _ _, h2⟩
      · rw [if_neg hd] at h
        rcases ih _ _ _ h with h1 | ⟨l, hl, he⟩
        · rcases Bool.or_eq_true_iff.mp h1 with h2 | h3
          · exact Or.inl h2
          · exact Or.inr ⟨line, List.mem_cons_self _ _, h3⟩
        · exact Or.inr ⟨l, List.mem_cons_of_mem _ hl, he⟩

theorem parseSegment_cons (seg l0 : List Char) (ls : List (List Char))
    (hl : segLines seg = l0 :: ls) :
    parseSegment seg =
      match pathOf l0 with
      | none => some none
      | some fp =>
        match scanHeader (ls.take 9) (.file, false, false) with
        | (.directory, n, d) => some (some ⟨fp, .directory, n, d, []⟩)
        | (.binary, n, d) => some (some ⟨fp, .binary, n, d, []⟩)
        | (.file, n, d) => some (some ⟨fp, .file, n, d, scanHunks ls⟩) := by
  unfold parseSegment
  rw [hl]
  rfl

theorem parseSegment_flags_markers (seg : List Char) (fc : FileChange)
    (h : parseSegment seg = some (some fc)) :
    (fc.isNew = true → ∃ l ∈ segLines seg, includesStr "new file mode" l = true) ∧
    (fc.isDeleted = true →
      ∃ l ∈ segLines seg, includesStr "deleted file mode" l = true) := by
  rcases hl : segLines seg with _ | ⟨l0, ls⟩
  · rw [(parseSegment_eq_none seg).mpr hl] at h
    cases h
  · rw [parseSegment_cons seg l0 ls hl] at h
    rcases hpth : pathOf l0 with _ | fp <;> rw [hpth] at h
    · simp at h
    · rcases hsc : scanHeader (ls.take 9) (.file, false, false) with ⟨ft, n, d⟩
      rw [hsc] at h
      have hmem : ∀ l, l ∈ ls.take 9 → l ∈ l0 :: ls := fun l hml =>
        List.mem_cons_of_mem _ (List.mem_of_mem_take hml)
      have hflags : fc.isNew = n ∧ fc.isDeleted = d := by
        cases ft <;> simp only [Option.some.injEq] at h <;> rw [← h] <;>
          exact ⟨rfl, rfl⟩
      constructor
      · intro hn
        have hsn : (scanHeader (ls.take 9) (FileType.file, false, false)).2.1 = true := by
          rw [hsc]
          rw [hflags.1] at hn
          exact hn
        rcases scanHeader_isNew _ _ _ _ hsn with h1 | ⟨l, hml, he⟩
        · cases h1
        · exact ⟨l, hmem l hml, he⟩
      · intro hd
        have hsd : (scanHeader (ls.take 9) (FileType.file, false, false)).2.2 = true := by
          rw [hsc]
          rw [hflags.2] at hd
          exact hd
        rcases scanHeader_isDeleted _ _ _ _ hsd with h1 | ⟨l, hml, he⟩
        · cases h1
        · exact ⟨l, hmem l hml, he⟩

theorem segLines_mem_isInfix (seg l : List Char) (h : l ∈ segLines seg) :
    l <:+: seg := by
  unfold segLines at h
  exact splitNl_mem_isInfix seg l (List.Sublist.mem h (List.dropLast_sublist _))

/-! ### Lemmas about the hunk-scanning loop (malformed `@@` lines) -/

theorem hunkStep_malformed_open (st : HState) (line : List Char)
    (ha : startsAtAt line = true) (hm : matchHunkHeader line = none)
    (hin : st.inHunk = true) :
    hunkStep st line =
      ⟨true, { st.cur with content := trimNl st.cur.content },
        st.hunks ++ [{ st.cur with content := trimNl st.cur.content }]⟩ := by
  cases st with
  | mk inH cur hunks =>
    simp only at hin
    subst hin
    simp [hunkStep, ha, hm]

theorem hunkStep_malformed_closed (st : HState) (line : List Char)
    (ha : startsAtAt line = true) (hm : matchHunkHeader line = none)
    (hin : st.inHunk = false) :
    hunkStep st line = st := by
  cases st with
  | mk inH cur hunks =>
    simp only at hin
    subst hin
    simp [hunkStep, ha, hm]

theorem foldl_hunkStep_inert :
    ∀ (ls : List (List Char)),
      (∀ l ∈ ls, startsAtAt l = true → matchHunkHeader l = none) →
      ∀ (cur : Hunk) (hs : List Hunk),
        ls.foldl hunkStep ⟨false, cur, hs⟩ = ⟨false, cur, hs⟩ := by
  intro ls
  induction ls with
  | nil =>
    intro _ cur hs
    rfl
  | cons line rest ih =>
    intro h cur hs
    have hstep : hunkStep ⟨false, cur, hs⟩ line = ⟨false, cur, hs⟩ := by
      by_cases ha : startsAtAt line = true
      · exact hunkStep_malformed_closed _ _ ha (h line (List.mem_cons_self _ _) ha) rfl
      · simp [hunkStep, ha]
    rw [List.foldl_cons, hstep]
    exact ih (fun l hl hb => h l (List.mem_cons_of_mem _ hl) hb) cur hs

theorem scanHunks_no_header (ls : List (List Char))
    (h : ∀ l ∈ ls, startsAtAt l = true → matchHunkHeader l = none) :
    scanHunks ls = [] := by
  unfold scanHunks
  rw [foldl_hunkStep_inert ls h]
  rfl

/-! ### Claim theorems -/

/-- Claim C1 (confirmed): `applyPatchToContent` processes the hunks in
descending order of `oldStartLine`: the sorted hunk list is a permutation of
`change.hunks` that is pairwise descending in `oldStartLine`; in particular,
for the two hunks at `old_start = 2` and `old_start = 10` on a 20-line file,
the `old_start = 10` hunk is applied first, and the result equals what
per-hunk splicing against the original line numbering prescribes. -/
theorem c1_hunks_applied_bottom_up :
    (∀ hs : List Hunk,
      List.Pairwise (fun a b => b.oldStartLine ≤ a.oldStartLine) (sortHunks hs) ∧
      List.Perm (sortHunks hs) hs) ∧
    sortHunks [c1hunkLow, c1hunkHigh] = [c1hunkHigh, c1hunkLow] ∧
    applyPatchToContent c1orig c1change = c1expected := by
  refine ⟨fun hs => ⟨?_, ?_⟩, by decide, by decide⟩
  · haveI : IsTotal Hunk (fun a b => b.oldStartLine ≤ a.oldStartLine) :=
      ⟨fun a b => Nat.le_total _ _⟩
    haveI : IsTrans Hunk (fun a b => b.oldStartLine ≤ a.oldStartLine) :=
      ⟨fun a b c h1 h2 => Nat.le_trans h2 h1⟩
    exact List.sorted_insertionSort _ hs
  · exact List.perm_insertionSort _ hs

/-- Claim C2 (confirmed): applying the single hunk
`old_start=1, old_count=3, new_start=1, new_count=4` with body
`[context a, removed b, added c, added d, context e]` to `"a\nb\ne\n"`
yields exactly `"a\nc\nd\ne\n"`. -/
theorem c2_apply_concrete_example :
    applyPatchToContent c2orig c2change = "a\nc\nd\ne\n".toList := by
  decide

/-- Claim C3 (confirmed): parsing a single-file diff whose segment contains
the hunk header `@@ -1,3 +1,4 @@` followed by ` a`, `-b`, `+c`, `+d`, ` e`
returns one `FileChange` with exactly one hunk with
`old_start=1, old_count=3, new_start=1, new_count=4`, whose body reads, in
order, as context `a`, removed `b`, added `c`, added `d`, context `e`. -/
theorem c3_parse_concrete_example :
    parsePatchFile c3input =
      some [⟨"f".toList, .file, false, false,
        [⟨1, 3, 1, 4, " a\n-b\n+c\n+d\n e".toList⟩]⟩] ∧
    taggedBody (" a\n-b\n+c\n+d\n e".toList) =
      [(.context, "a".toList), (.removed, "b".toList), (.added, "c".toList),
       (.added, "d".toList), (.context, "e".toList)] :=
  ⟨by decide, by decide⟩

/-- Counterexample to claim C4: `parsePatchFile` returns the hunk of
`c4input` (header counts 5/5, body a single context line) without any
error, so a count mismatch is not surfaced as a parse error. -/
theorem c4_counterexample_mismatch_tolerated :
    parsePatchFile c4input = some [c4record] ∧
    oldBodyCount c4hunk.content = 1 ∧ c4hunk.oldLineCount = 5 ∧
    newBodyCount c4hunk.content = 1 ∧ c4hunk.newLineCount = 5 :=
  ⟨by decide, by decide, by decide, by decide, by decide⟩

/-- Claim C4 (corrected): `parsePatchFile` performs no line-count
validation; its only failure is the modelled `TypeError` on a segment whose
popped line list is empty, and a hunk whose body counts disagree with its
header counts is returned silently. -/
theorem c4_amended_no_count_validation :
    (∀ input : List Char,
      parsePatchFile input = none ↔ ∃ seg ∈ segmentsOf input, segLines seg = []) ∧
    parsePatchFile c4input = some [c4record] := by
  constructor
  · intro input
    rw [parsePatchFile, parseSegs_eq_none]
    constructor
    · intro ⟨s, hs, he⟩
      exact ⟨s, hs, (parseSegment_eq_none s).mp he⟩
    · intro ⟨s, hs, he⟩
      exact ⟨s, hs, (parseSegment_eq_none s).mpr he⟩
  · decide

/-- Witness for C4's amended theorem at a concrete input: the
single-line-segment input makes `parsePatchFile` fail. -/
theorem c4_amended_witness : parsePatchFile ("diff --gitZ".toList) = none :=
  (c4_amended_no_count_validation.1 _).mpr ⟨['Z'], by decide, by decide⟩

/-- Counterexample to claim C5: `applyPatchToContent` happily returns
content for a `binary`-kind change and for a deleted change with no hunks;
there is no `UnsupportedKind`-style rejection (the return type has no
failure channel at all). -/
theorem c5_counterexample_returns_content :
    applyPatchToContent ("x\ny".toList) c5binChange = "x\ny".toList ∧
    applyPatchToContent ("x\ny".toList) c5delChange = "x\ny".toList :=
  ⟨by decide, by decide⟩

/-- Claim C5 (corrected): `applyPatchToContent` guards nothing: on any
change with no hunks — as `directory`/`binary` records and pure deletions
produced by the parser always are — it returns the original content
unchanged, and it never rejects any input. -/
theorem c5_amended_no_guard (original : List Char) (change : FileChange)
    (h : change.hunks = []) : applyPatchToContent original change = original := by
  unfold applyPatchToContent
  rw [h]
  simp only [sortHunks, List.insertionSort, List.foldl_nil]
  exact joinNl_splitNl original

/-- Witness for C5's amended theorem at a concrete directory change. -/
theorem c5_amended_witness :
    applyPatchToContent ("a\nb".toList) ⟨"d".toList, .directory, true, false, []⟩ =
      "a\nb".toList :=
  c5_amended_no_guard _ _ rfl

/-- Counterexample to claim C6: on the one-line input
`diff --git a/x b/x` the single segment's popped line list is empty, so
`lines[0].match` throws (modelled as `none`) — `parsePatchFile` does not
"never raise". -/
theorem c6_counterexample_throws : parsePatchFile c6input = none := by
  decide

/-- Claim C6 (corrected): on every input whose file segments each contain a
newline, `parsePatchFile` never raises; every segment whose (popped) path
line matches neither path form is dropped and the records of all matching
segments are returned in order. -/
theorem c6_amended_lenient_parse (input : List Char)
    (h : ∀ seg ∈ segmentsOf input, '\n' ∈ seg) :
    parsePatchFile input =
      some ((segmentsOf input).filterMap (fun seg => (parseSegment seg).join)) := by
  unfold parsePatchFile
  refine parseSegs_eq_filterMap _ ?_
  intro seg hs hnone
  exact segLines_ne_nil_of_newline seg (h seg hs) ((parseSegment_eq_none seg).mp hnone)

/-- Witness for C6's amended theorem: an input with an `a/ b/` segment, a
quoted-path segment and an unmatchable segment parses to exactly the two
matching records. -/
theorem c6_amended_witness :
    parsePatchFile c6winput =
      some [⟨"x".toList, .file, false, false, []⟩,
        ⟨"p r".toList, .file, false, false, []⟩] := by
  rw [c6_amended_lenient_parse c6winput (by decide)]
  decide

/-- Counterexample to claim C7: with a hunk open, the malformed marker line
`@@bad` of `c7input` is not appended to the open hunk's body — instead the
open hunk is closed and pushed (content ` x`), and the following body line
accumulates into a second hunk carrying the same header values (content
` x y`, continuing from the already-trimmed text). The hunk IS closed and
IS duplicated, contradicting the claim. -/
theorem c7_counterexample_closes_and_duplicates :
    parsePatchFile c7input =
      some [⟨"f".toList, .file, false, false,
        [⟨1, 2, 1, 2, " x".toList⟩, ⟨1, 2, 1, 2, " x y".toList⟩]⟩] := by
  decide

/-- Claim C7 (corrected): a line starting with `@@` that fails the header
pattern is never itself recorded: if a hunk is open, that hunk is closed
(trimmed and pushed) and the scan keeps accumulating into a continuation
hunk with the same header values; if no hunk is open the line is ignored
(a line list with no matching header yields no hunks at all); concretely,
a malformed `@@` line before any hunk leaves parsing unaffected. -/
theorem c7_amended_malformed_header_behavior :
    (∀ (st : HState) (line : List Char), startsAtAt line = true →
        matchHunkHeader line = none → st.inHunk = true →
        hunkStep st line =
          ⟨true, { st.cur with content := trimNl st.cur.content },
            st.hunks ++ [{ st.cur with content := trimNl st.cur.content }]⟩) ∧
    (∀ (st : HState) (line : List Char), startsAtAt line = true →
        matchHunkHeader line = none → st.inHunk = false → hunkStep st line = st) ∧
    (∀ ls : List (List Char),
        (∀ l ∈ ls, startsAtAt l = true → matchHunkHeader l = none) →
        scanHunks ls = []) ∧
    parsePatchFile c7binput =
      some [⟨"f".toList, .file, false, false, [⟨1, 1, 1, 1, " w".toList⟩]⟩] :=
  ⟨hunkStep_malformed_open, hunkStep_malformed_closed, scanHunks_no_header,
    by decide⟩

/-- Witness for C7's amended theorem at concrete states and lines. -/
theorem c7_amended_witness :
    hunkStep ⟨true, ⟨1, 2, 1, 2, " x\n".toList⟩, []⟩ ("@@bad".toList) =
      ⟨true, ⟨1, 2, 1, 2, " x".toList⟩, [⟨1, 2, 1, 2, " x".toList⟩]⟩ ∧
    hunkStep ⟨false, ⟨0, 0, 0, 0, []⟩, []⟩ ("@@bad".toList) =
      ⟨false, ⟨0, 0, 0, 0, []⟩, []⟩ ∧
    scanHunks ["@@oops".toList] = [] :=
  ⟨(c7_amended_malformed_header_behavior.1 _ _ (by decide) (by decide) rfl).trans
      (by decide),
    c7_amended_malformed_header_behavior.2.1 _ _ (by decide) (by decide) rfl,
    c7_amended_malformed_header_behavior.2.2.1 _ (by decide)⟩

/-- Claim C8 (confirmed): a valid single-hunk regular change whose body is
exactly the context view of the original lines it spans (and whose range
lies within the original) applies to the original unchanged. -/
theorem c8_context_only_identity (orig : List Char) (change : FileChange)
    (h : Hunk) (hkind : change.fileType = FileType.file)
    (hh : change.hunks = [h])
    (hstart : 1 ≤ h.oldStartLine)
    (hrange : h.oldStartLine - 1 + h.oldLineCount ≤ (splitNl orig).length)
    (hbody : splitNl h.content =
      (((splitNl orig).drop (h.oldStartLine - 1)).take h.oldLineCount).map
        (fun w => ' ' :: w)) :
    applyPatchToContent orig change = orig := by
  have hsort : sortHunks [h] = [h] := by simp [sortHunks]
  have hins : linesToInsert h.content =
      ((splitNl orig).drop (h.oldStartLine - 1)).take h.oldLineCount := by
    unfold linesToInsert
    rw [hbody]
    exact filterMap_insertLineF_context _
  have hneg : ¬((h.oldStartLine : Int) - 1 < 0) := by omega
  have htn : ((h.oldStartLine : Int) - 1).toNat = h.oldStartLine - 1 := by omega
  have hmin : min (h.oldStartLine - 1) (splitNl orig).length = h.oldStartLine - 1 :=
    Nat.min_eq_left (by omega)
  simp only [applyPatchToContent, hh, hsort, List.foldl_cons, List.foldl_nil,
    hins, spliceJs, if_neg hneg, htn, hmin]
  have key := take_take_drop_drop (splitNl orig) (h.oldStartLine - 1) h.oldLineCount
  rw [← List.append_assoc] at key
  rw [key]
  exact joinNl_splitNl orig

/-- Witness for C8 at a concrete all-context hunk. -/
theorem c8_witness : applyPatchToContent c8orig c8change = c8orig :=
  c8_context_only_identity c8orig c8change c8hunk rfl rfl (by decide) (by decide)
    (by decide)

/-- Counterexample to claim C9: a segment whose header block contains both
marker lines yields a record with `isNew` and `isDeleted` both set — the
flags are not mutually exclusive. -/
theorem c9_counterexample_both_flags :
    parsePatchFile c9input =
      some [⟨"f".toList, .file, true, true, [⟨1, 1, 1, 1, " x".toList⟩]⟩] := by
  decide

/-- Claim C9 (corrected): the two flags are independent substring checks,
so a record can carry both only when the input itself contains both the
`new file mode` and the `deleted file mode` markers; on any input lacking
one of them, `isNew` and `isDeleted` are mutually exclusive on every
returned record. -/
theorem c9_amended_flags_require_markers (input : List Char)
    (records : List FileChange) (r : FileChange)
    (hp : parsePatchFile input = some records) (hr : r ∈ records)
    (hn : r.isNew = true) (hd : r.isDeleted = true) :
    ("new file mode".toList <:+: input) ∧
    ("deleted file mode".toList <:+: input) := by
  obtain ⟨seg, hseg, hps⟩ := parseSegs_mem _ _ hp r hr
  have hinfseg : seg <:+: input := segmentsOf_isInfix input seg hseg
  obtain ⟨hnew, hdel⟩ := parseSegment_flags_markers seg r hps
  obtain ⟨l1, hl1, he1⟩ := hnew hn
  obtain ⟨l2, hl2, he2⟩ := hdel hd
  constructor
  · exact ((includesAux_isInfix _ _ he1).trans
      (segLines_mem_isInfix seg l1 hl1)).trans hinfseg
  · exact ((includesAux_isInfix _ _ he2).trans
      (segLines_mem_isInfix seg l2 hl2)).trans hinfseg

/-- Witness for C9's amended theorem at the both-flags input. -/
theorem c9_amended_witness :
    ("new file mode".toList <:+: c9input) ∧
    ("deleted file mode".toList <:+: c9input) :=
  c9_amended_flags_require_markers c9input
    [⟨"f".toList, .file, true, true, [⟨1, 1, 1, 1, " x".toList⟩]⟩]
    ⟨"f".toList, .file, true, true, [⟨1, 1, 1, 1, " x".toList⟩]⟩
    (by decide) (by decide) rfl rfl

/-- Claim C10 (confirmed): the parser's per-segment line list is the
newline-split of the segment with its final element discarded; appending a
newline to a segment only removes the empty trailing artifact, while a
segment not ending in a newline loses its (nonempty) last line; concretely,
without a trailing newline the final body line ` b` is absent from the
parsed hunk. -/
theorem c10_pop_discards_final_line :
    (∀ seg : List Char, segLines seg = (splitNl seg).dropLast) ∧
    (∀ xs : List Char, segLines (xs ++ ['\n']) = splitNl xs) ∧
    (∀ seg : List Char, seg ≠ [] → seg.getLast? ≠ some '\n' →
      ∃ t, t ≠ [] ∧ splitNl seg = segLines seg ++ [t]) ∧
    parsePatchFile c10noNl =
      some [⟨"f".toList, .file, false, false, [⟨1, 2, 1, 2, " a".toList⟩]⟩] ∧
    parsePatchFile c10withNl =
      some [⟨"f".toList, .file, false, false, [⟨1, 2, 1, 2, " a\n b".toList⟩]⟩] := by
  refine ⟨fun seg => rfl, ?_, ?_, by decide, by decide⟩
  · intro xs
    unfold segLines
    rw [splitNl_append_newline, List.dropLast_concat]
  · intro seg h0 h1
    have hne := splitNl_ne_nil seg
    have hlast : (splitNl seg).getLast? = some ((splitNl seg).getLast hne) :=
      List.getLast?_eq_getLast _ hne
    refine ⟨(splitNl seg).getLast hne, ?_, ?_⟩
    · exact splitNl_getLast_ne_nil seg h1 _ hlast h0
    · unfold segLines
      exact (List.dropLast_concat_getLast hne).symm

/-- Witness for C10 at a concrete segment with and without a trailing
newline. -/
theorem c10_witness :
    segLines ("ab\ncd".toList ++ ['\n']) = splitNl ("ab\ncd".toList) ∧
    (∃ t, t ≠ [] ∧
      splitNl ("ab\ncd".toList) = segLines ("ab\ncd".toList) ++ [t]) :=
  ⟨c10_pop_discards_final_line.2.1 _,
    c10_pop_discards_final_line.2.2.1 _ (by decide) (by decide)⟩

end GitPatch
